import Mathlib

/-!
Verification of the MPPI controller utility layer of this repository
(`mppi::utils`, in the `nav2_mppi_controller` tools header) and of the
`DriveOnHeading` behavior's configuration check, against the repository's
natural-language specification.

Machine floats and doubles of the source are modelled by exact rationals:
all the properties checked here concern control flow, indexing and order
comparisons, which the idealisation preserves.  Angles stored in
quaternions are modelled directly by their yaw value.  In-place mutation
of C++ references is modelled by explicit state passing: a function that
mutates its argument returns the argument's new value.
-/

/-- A planar pose: position and heading (yaw).  Models
`geometry_msgs::msg::Pose` restricted to the fields the verified code
reads and writes (x, y and the yaw stored in the quaternion). -/
structure Pose where
  x : ℚ
  y : ℚ
  yaw : ℚ
deriving DecidableEq

/-- Path tensor, models `mppi::models::Path`: coordinate and yaw columns
plus the element count (`x.size()` in the source). -/
structure PathT where
  len : ℕ
  x : ℕ → ℚ
  y : ℕ → ℚ
  yaws : ℕ → ℚ

/-- Batch of rolled-out trajectories, models
`mppi::models::Trajectories`: `rows` trajectories of `cols` timesteps. -/
structure Trajectories where
  rows : ℕ
  cols : ℕ
  x : ℕ → ℕ → ℚ
  y : ℕ → ℕ → ℚ

/-- Per-pass critic context, models `mppi::CriticData` restricted to the
fields the verified utilities touch. -/
structure CriticData where
  path : PathT
  trajectories : Trajectories
  goal : Pose
  furthest_reached_path_point : Option ℕ
  path_pts_valid : Option (List Bool)

/-- Models `mppi::utils::clamp`: `std::min(upper_bound, std::max(input,
lower_bound))`. -/
def clamp (lower_bound upper_bound input : ℚ) : ℚ :=
  min upper_bound (max input lower_bound)

/-- Models `mppi::utils::getLastPathPose`: reads position and yaw of the
path point at index `path.x.size() - 1`. -/
def getLastPathPose (path : PathT) : Pose :=
  let path_last_idx := path.len - 1
  { x := path.x path_last_idx
    y := path.y path_last_idx
    yaw := path.yaws path_last_idx }

/-- Models `mppi::utils::getCriticGoal`: the cusp point (last pose of the
possibly truncated path) under path-inversion enforcement, the literal
goal otherwise. -/
def getCriticGoal (data : CriticData) (enforce_path_inversion : Bool) : Pose :=
  if enforce_path_inversion then getLastPathPose data.path else data.goal

/-- The position tolerance a `nav2_core::GoalChecker` hands back through
`getTolerances` (`pose_tolerance.position.x` is the only field read). -/
structure GoalCheckerTol where
  xyTol : ℚ

/-- Models the goal-checker overload of
`mppi::utils::withinPositionGoalTolerance`; a null checker pointer is
`none` and yields `false`. -/
def withinPositionGoalToleranceChecker
    (goal_checker : Option GoalCheckerTol) (robot goal : Pose) : Bool :=
  match goal_checker with
  | some gc =>
      let pose_tolerance_sq := gc.xyTol * gc.xyTol
      let dx := robot.x - goal.x
      let dy := robot.y - goal.y
      let dist_sq := dx * dx + dy * dy
      if dist_sq < pose_tolerance_sq then true else false
  | none => false

/-- Models the scalar-tolerance overload of
`mppi::utils::withinPositionGoalTolerance`. -/
def withinPositionGoalTolerance (pose_tolerance : ℚ) (robot goal : Pose) : Bool :=
  let dist_sq := (goal.x - robot.x) ^ 2 + (goal.y - robot.y) ^ 2
  let pose_tolerance_sq := pose_tolerance * pose_tolerance
  if dist_sq < pose_tolerance_sq then true else false

/-- Models the acceleration/deceleration validation step of
`nav2_behaviors::DriveOnHeading::onConfigure`: when the acceleration
limit is non-positive or the deceleration limit is non-negative, an
error-severity diagnostic is logged (the returned flag) and both values
are replaced by `abs` / `-abs`; configuration always completes. -/
def onConfigureLimits (acceleration_limit deceleration_limit : ℚ) : ℚ × ℚ × Bool :=
  if acceleration_limit ≤ 0 ∨ deceleration_limit ≥ 0 then
    (|acceleration_limit|, -|deceleration_limit|, true)
  else
    (acceleration_limit, deceleration_limit, false)

/-- C6: clamping a control element to its configured `[min, max]` range
is idempotent, and when the bounds are ordered the result lies within
the bounds. -/
theorem clamp_idempotent_and_bounded (l u x : ℚ) (h : l ≤ u) :
    clamp l u (clamp l u x) = clamp l u x ∧ l ≤ clamp l u x ∧ clamp l u x ≤ u := by
  have hc1 : l ≤ min u (max x l) := le_min h (le_max_right x l)
  have hc2 : min u (max x l) ≤ u := min_le_left _ _
  refine ⟨?_, hc1, hc2⟩
  show min u (max (min u (max x l)) l) = min u (max x l)
  rw [max_eq_left hc1, min_eq_right hc2]

/-- Witness for C6 at concrete bounds `[0, 1]` and input `5`. -/
theorem clamp_idempotent_and_bounded_witness :
    (0 : ℚ) ≤ 1 ∧ clamp 0 1 (clamp 0 1 5) = clamp 0 1 5 ∧
      (0 : ℚ) ≤ clamp 0 1 5 ∧ clamp 0 1 5 ≤ 1 :=
  ⟨by norm_num, clamp_idempotent_and_bounded 0 1 5 (by norm_num)⟩

/-- Helper: a boolean written `if P then true else false` is `true` iff
`P` holds. -/
theorem boolIf_eq_true {P : Prop} [Decidable P] : (if P then true else false) = true ↔ P := by
  split <;> simp_all

/-- Helper: a boolean written `if P then true else false` is `false` iff
`P` fails. -/
theorem boolIf_eq_false {P : Prop} [Decidable P] : (if P then true else false) = false ↔ ¬P := by
  split <;> simp_all

/-- C8: both overloads of the goal-tolerance check declare the robot "at
goal" exactly when the squared planar distance to the goal is strictly
below the squared tolerance; at or beyond the tolerance the answer is
`false`. -/
theorem withinPositionGoalTolerance_iff (tol : ℚ) (robot goal : Pose) (gc : GoalCheckerTol) :
    (withinPositionGoalTolerance tol robot goal = true ↔
      (goal.x - robot.x) ^ 2 + (goal.y - robot.y) ^ 2 < tol * tol) ∧
    (tol * tol ≤ (goal.x - robot.x) ^ 2 + (goal.y - robot.y) ^ 2 →
      withinPositionGoalTolerance tol robot goal = false) ∧
    (withinPositionGoalToleranceChecker (some gc) robot goal = true ↔
      (robot.x - goal.x) * (robot.x - goal.x) + (robot.y - goal.y) * (robot.y - goal.y) <
        gc.xyTol * gc.xyTol) := by
  refine ⟨boolIf_eq_true, fun hge => boolIf_eq_false.mpr (not_lt.mpr hge), boolIf_eq_true⟩

/-- Witness for C8: robot at distance exactly the tolerance (3) from the
goal is not at goal. -/
theorem withinPositionGoalTolerance_iff_witness :
    (3 : ℚ) * 3 ≤ ((0 : ℚ) - 3) ^ 2 + ((0 : ℚ) - 0) ^ 2 ∧
      withinPositionGoalTolerance 3 ⟨3, 0, 0⟩ ⟨0, 0, 0⟩ = false :=
  ⟨by norm_num,
   (withinPositionGoalTolerance_iff 3 ⟨3, 0, 0⟩ ⟨0, 0, 0⟩ ⟨0⟩).2.1 (by norm_num)⟩

/-- C7: for a non-empty path the effective goal handed to a critic is the
final path point (position and heading) when the critic enforces path
inversion, and the literal goal otherwise. -/
theorem getCriticGoal_effective_goal (data : CriticData) (hlen : 1 ≤ data.path.len) :
    getCriticGoal data true =
        { x := data.path.x (data.path.len - 1)
          y := data.path.y (data.path.len - 1)
          yaw := data.path.yaws (data.path.len - 1) } ∧
      getCriticGoal data false = data.goal :=
  ⟨rfl, rfl⟩

/-- Concrete critic context used as witness input for C7. -/
def dataC7 : CriticData :=
  { path := { len := 2, x := fun _ => 1, y := fun _ => 0, yaws := fun _ => 1 }
    trajectories := { rows := 0, cols := 0, x := fun _ _ => 0, y := fun _ _ => 0 }
    goal := ⟨9, 9, 9⟩
    furthest_reached_path_point := none
    path_pts_valid := none }

/-- Witness for C7 at a concrete two-point path. -/
theorem getCriticGoal_effective_goal_witness :
    1 ≤ dataC7.path.len ∧ getCriticGoal dataC7 true = ⟨1, 0, 1⟩ :=
  ⟨by norm_num [dataC7],
   ((getCriticGoal_effective_goal dataC7 (by norm_num [dataC7])).1.trans (by rfl))⟩

/-- C9: a misconfigured acceleration/deceleration pair never aborts
configuration: the diagnostic flag is raised and the pair is corrected
to `(|a|, -|d|)`, which is non-negative / non-positive respectively. -/
theorem driveOnHeading_limit_correction (a d : ℚ) (h : a ≤ 0 ∨ 0 ≤ d) :
    onConfigureLimits a d = (|a|, -|d|, true) ∧
      0 ≤ (onConfigureLimits a d).1 ∧ (onConfigureLimits a d).2.1 ≤ 0 := by
  have hcond : a ≤ 0 ∨ d ≥ 0 := h
  unfold onConfigureLimits
  rw [if_pos hcond]
  exact ⟨rfl, abs_nonneg a, neg_nonpos.mpr (abs_nonneg d)⟩

/-- Witness for C9 at the misconfigured pair `(-2, 1)`. -/
theorem driveOnHeading_limit_correction_witness :
    ((-2 : ℚ) ≤ 0 ∨ (0 : ℚ) ≤ 1) ∧ onConfigureLimits (-2) 1 = (2, -1, true) :=
  ⟨Or.inl (by norm_num),
   (driveOnHeading_limit_correction (-2) 1 (Or.inl (by norm_num))).1.trans (by norm_num)⟩

/-- Position of a point on a `nav_msgs::msg::Path`, read through
`poses[idx].pose.position`; out-of-range indices (never reached by the
verified code) give the zero pose. -/
def poseAt (ps : List Pose) (i : ℕ) : Pose :=
  ps.getD i ⟨0, 0, 0⟩

/-- Dot product of the two direction vectors OA and AB around the path
point at `idx`, exactly as computed in
`mppi::utils::findFirstPathInversion`. -/
def inversionDot (ps : List Pose) (idx : ℕ) : ℚ :=
  let oa_x := (poseAt ps idx).x - (poseAt ps (idx - 1)).x
  let oa_y := (poseAt ps idx).y - (poseAt ps (idx - 1)).y
  let ab_x := (poseAt ps (idx + 1)).x - (poseAt ps idx).x
  let ab_y := (poseAt ps (idx + 1)).y - (poseAt ps idx).y
  oa_x * ab_x + oa_y * ab_y

/-- The scan loop of `findFirstPathInversion`: starting at `idx`, with
`k` iterations left (the source iterates `idx` up to
`path.poses.size() - 2`), return `idx + 1` at the first negative dot
product, else the path length. -/
def findInvLoopAux (ps : List Pose) : ℕ → ℕ → ℕ
  | 0, _ => ps.length
  | k + 1, idx => if inversionDot ps idx < 0 then idx + 1 else findInvLoopAux ps k (idx + 1)

/-- Models `mppi::utils::findFirstPathInversion`: paths of fewer than 3
poses have no inversion; otherwise scan point triples from `idx = 1` to
`size - 2`. -/
def findFirstPathInversion (ps : List Pose) : ℕ :=
  if ps.length < 3 then ps.length
  else findInvLoopAux ps (ps.length - 2) 1

/-- Models `mppi::utils::removePosesAfterFirstInversion`: the new value
of the by-reference path argument paired with the returned inversion
location (the source erases from the inversion iterator to the end of a
copy and assigns the copy back, which is `take`; when no inversion
exists the path is unchanged and `0` is returned). -/
def removePosesAfterFirstInversion (ps : List Pose) : List Pose × ℕ :=
  if findFirstPathInversion ps = ps.length then (ps, 0)
  else (ps.take (findFirstPathInversion ps), findFirstPathInversion ps)

/-- Modelled from the spec: the per-pass path preparation step (the
controller's path handler, whose source is not under `src/`) keeps the
incoming plan and lets inversion detection and truncation act on a
working copy only ("a working copy may be truncated at the first
detected direction reversal before being used by this pass — the
original is never mutated").  Returns the original, the truncated
working copy and the inversion location. -/
def preparePathForPass (original : List Pose) : List Pose × List Pose × ℕ :=
  let workingCopy := original
  let r := removePosesAfterFirstInversion workingCopy
  (original, r.1, r.2)

/-- The spec's inversion-detection example path
(0,0),(1,0),(2,0),(1,0),(0,0). -/
def examplePath5 : List Pose :=
  [⟨0, 0, 0⟩, ⟨1, 0, 0⟩, ⟨2, 0, 0⟩, ⟨1, 0, 0⟩, ⟨0, 0, 0⟩]

/-- Characterization of the scan loop: either no dot product in the
scanned window is negative and the path length is returned, or the
result is `c + 1` for the first scanned index `c` with a negative dot
product. -/
theorem findInvLoopAux_spec (ps : List Pose) :
    ∀ k idx,
      (findInvLoopAux ps k idx = ps.length ∧
        ∀ j, idx ≤ j → j < idx + k → 0 ≤ inversionDot ps j) ∨
      (∃ c, findInvLoopAux ps k idx = c + 1 ∧ idx ≤ c ∧ c < idx + k ∧
        inversionDot ps c < 0 ∧ ∀ j, idx ≤ j → j < c → 0 ≤ inversionDot ps j) := by
  intro k
  induction k with
  | zero =>
    intro idx
    exact Or.inl ⟨rfl, fun j h1 h2 => absurd h2 (by omega)⟩
  | succ k ih =>
    intro idx
    by_cases hneg : inversionDot ps idx < 0
    · refine Or.inr ⟨idx, ?_, le_refl idx, by omega, hneg, fun j h1 h2 => absurd h2 (by omega)⟩
      simp [findInvLoopAux, hneg]
    · have hstep : findInvLoopAux ps (k + 1) idx = findInvLoopAux ps k (idx + 1) := by
        simp [findInvLoopAux, hneg]
      have hge : 0 ≤ inversionDot ps idx := not_lt.mp hneg
      rcases ih (idx + 1) with h | h
      · refine Or.inl ⟨hstep.trans h.1, fun j h1 h2 => ?_⟩
        rcases Nat.eq_or_lt_of_le h1 with heq | hlt
        · exact heq ▸ hge
        · exact h.2 j hlt (by omega)
      · obtain ⟨c, hc1, hc2, hc3, hc4, hc5⟩ := h
        refine Or.inr ⟨c, hstep.trans hc1, by omega, by omega, hc4, fun j h1 h2 => ?_⟩
        rcases Nat.eq_or_lt_of_le h1 with heq | hlt
        · exact heq ▸ hge
        · exact hc5 j hlt h2

/-- C1: inversion detection returns, for a path with an inversion, one
more than the first scanned index whose successive-direction dot product
is negative (scanning starts at index 1), and the path length when no
inversion exists; truncation keeps exactly the points before the
returned index.  On the spec's example path the returned index is 3 and
the truncated path has 3 points. -/
theorem inversion_detection_and_truncation :
    (∀ ps : List Pose,
      findFirstPathInversion ps ≤ ps.length ∧
      (findFirstPathInversion ps < ps.length →
        ∃ c, findFirstPathInversion ps = c + 1 ∧ 1 ≤ c ∧ c + 1 < ps.length ∧
          inversionDot ps c < 0 ∧ ∀ j, 1 ≤ j → j < c → 0 ≤ inversionDot ps j) ∧
      (findFirstPathInversion ps < ps.length →
        removePosesAfterFirstInversion ps =
          (ps.take (findFirstPathInversion ps), findFirstPathInversion ps) ∧
        (removePosesAfterFirstInversion ps).1.length = findFirstPathInversion ps) ∧
      (findFirstPathInversion ps = ps.length → removePosesAfterFirstInversion ps = (ps, 0))) ∧
    findFirstPathInversion examplePath5 = 3 ∧
    (removePosesAfterFirstInversion examplePath5).1.length = 3 := by
  have hexample : findFirstPathInversion examplePath5 = 3 := by
    norm_num [findFirstPathInversion, examplePath5, findInvLoopAux, inversionDot, poseAt]
  refine ⟨fun ps => ⟨?_, ?_, ?_, ?_⟩, hexample, ?_⟩
  · unfold findFirstPathInversion
    split
    · exact le_refl _
    · rcases findInvLoopAux_spec ps (ps.length - 2) 1 with h | h
      · exact h.1.le
      · obtain ⟨c, hc1, _, hc3, _, _⟩ := h
        omega
  · intro hlt
    unfold findFirstPathInversion at hlt ⊢
    by_cases hlen : ps.length < 3
    · rw [if_pos hlen] at hlt
      exact absurd hlt (lt_irrefl _)
    · rw [if_neg hlen] at hlt ⊢
      rcases findInvLoopAux_spec ps (ps.length - 2) 1 with h | h
      · rw [h.1] at hlt
        exact absurd hlt (lt_irrefl _)
      · obtain ⟨c, hc1, hc2, hc3, hc4, hc5⟩ := h
        exact ⟨c, hc1, hc2, by omega, hc4, hc5⟩
  · intro hlt
    unfold removePosesAfterFirstInversion
    rw [if_neg (by omega)]
    refine ⟨rfl, ?_⟩
    simpa using le_of_lt hlt
  · intro heq
    unfold removePosesAfterFirstInversion
    rw [if_pos heq]
  · unfold removePosesAfterFirstInversion
    rw [hexample]
    norm_num [examplePath5]

/-- Witness for C1: the example path has an inversion strictly inside
it, and truncation keeps exactly `findFirstPathInversion` points. -/
theorem inversion_detection_and_truncation_witness :
    findFirstPathInversion examplePath5 < examplePath5.length ∧
      (removePosesAfterFirstInversion examplePath5).1.length =
        findFirstPathInversion examplePath5 := by
  have hlt : findFirstPathInversion examplePath5 < examplePath5.length := by
    norm_num [findFirstPathInversion, examplePath5, findInvLoopAux, inversionDot, poseAt]
  exact ⟨hlt, ((inversion_detection_and_truncation.1 examplePath5).2.2.1 hlt).2⟩

/-- C4: the pass's original path is untouched by inversion detection and
truncation: the working copy carries the truncation, which always yields
a prefix (`take`) of the original, and the original component of the
pass preparation equals the incoming path. -/
theorem truncation_preserves_original_path (ps : List Pose) :
    (preparePathForPass ps).1 = ps ∧
      (preparePathForPass ps).2.1 = (removePosesAfterFirstInversion ps).1 ∧
      (preparePathForPass ps).2.2 = (removePosesAfterFirstInversion ps).2 ∧
      (preparePathForPass ps).2.1 = ps.take (findFirstPathInversion ps) := by
  refine ⟨rfl, rfl, rfl, ?_⟩
  show (removePosesAfterFirstInversion ps).1 = ps.take (findFirstPathInversion ps)
  unfold removePosesAfterFirstInversion
  split
  · rename_i heq
    rw [heq, List.take_length]
  · rfl

/-- Cost value of a lethal obstacle cell (`nav2_costmap_2d`). -/
def LETHAL_OBSTACLE : ℕ := 254

/-- Cost value of an inscribed-inflated-obstacle cell
(`nav2_costmap_2d`). -/
def INSCRIBED_INFLATED_OBSTACLE : ℕ := 253

/-- Cost value of an unknown cell (`nav2_costmap_2d`). -/
def NO_INFORMATION : ℕ := 255

/-- The read-only query interface of the cost grid consumed by
`findPathCosts` (the grid's own implementation is an external
collaborator): world-to-map conversion (`none` when the world point is
outside the grid), per-cell cost lookup, and whether unknown space is
tracked. -/
structure Costmap where
  worldToMap : ℚ → ℚ → Option (ℕ × ℕ)
  getCost : ℕ → ℕ → ℕ
  trackingUnknown : Bool

/-- The per-segment decision of `mppi::utils::findPathCosts`: the net
value written into `path_pts_valid[idx]` (the source first writes
`false` then overwrites according to the switch). -/
def pathPointValid (cm : Costmap) (path : PathT) (idx : ℕ) : Bool :=
  match cm.worldToMap (path.x idx) (path.y idx) with
  | none => false
  | some (mx, my) =>
      if cm.getCost mx my = LETHAL_OBSTACLE then false
      else if cm.getCost mx my = INSCRIBED_INFLATED_OBSTACLE then false
      else if cm.getCost mx my = NO_INFORMATION then cm.trackingUnknown
      else true

/-- Models `mppi::utils::findPathCosts`: fills `path_pts_valid` with one
entry per path segment (`path.x.size() - 1`). -/
def findPathCosts (cm : Costmap) (data : CriticData) : CriticData :=
  { data with
    path_pts_valid :=
      some ((List.range (data.path.len - 1)).map (pathPointValid cm data.path)) }

/-- Models `mppi::utils::setPathCostsIfNotSet`: compute the mask only
when the cache is empty. -/
def setPathCostsIfNotSet (cm : Costmap) (data : CriticData) : CriticData :=
  match data.path_pts_valid with
  | none => findPathCosts cm data
  | some _ => data

/-- C5: for a path of at least one point the validity mask has exactly
one entry per path segment, and an entry is `false` exactly when the
segment's start point falls outside the grid or its cell is lethal,
inscribed-inflated-obstacle, or unknown while unknown space is not
tracked; `setPathCostsIfNotSet` computes the same mask on an unset
cache. -/
theorem path_validity_mask_correct (cm : Costmap) (data : CriticData)
    (hlen : 1 ≤ data.path.len) :
    ∃ mask, (findPathCosts cm data).path_pts_valid = some mask ∧
      mask.length = data.path.len - 1 ∧
      (∀ idx, idx < data.path.len - 1 →
        mask.getD idx true = pathPointValid cm data.path idx) ∧
      (∀ idx,
        (pathPointValid cm data.path idx = false ↔
          cm.worldToMap (data.path.x idx) (data.path.y idx) = none ∨
          ∃ mx my, cm.worldToMap (data.path.x idx) (data.path.y idx) = some (mx, my) ∧
            (cm.getCost mx my = LETHAL_OBSTACLE ∨
             cm.getCost mx my = INSCRIBED_INFLATED_OBSTACLE ∨
             (cm.getCost mx my = NO_INFORMATION ∧ cm.trackingUnknown = false)))) ∧
      setPathCostsIfNotSet cm { data with path_pts_valid := none } =
        findPathCosts cm { data with path_pts_valid := none } := by
  refine ⟨(List.range (data.path.len - 1)).map (pathPointValid cm data.path),
    rfl, by simp, ?_, ?_, rfl⟩
  · intro idx hidx
    rw [List.getD_eq_getElem?_getD, List.getElem?_map, List.getElem?_range hidx]
    rfl
  · intro idx
    unfold pathPointValid
    rcases hm : cm.worldToMap (data.path.x idx) (data.path.y idx) with _ | ⟨mx, my⟩
    · simp
    · simp only [hm, Option.some.injEq, reduceCtorEq, false_or]
      constructor
      · intro hfalse
        by_cases h1 : cm.getCost mx my = LETHAL_OBSTACLE
        · exact ⟨mx, my, rfl, Or.inl h1⟩
        · by_cases h2 : cm.getCost mx my = INSCRIBED_INFLATED_OBSTACLE
          · exact ⟨mx, my, rfl, Or.inr (Or.inl h2)⟩
          · by_cases h3 : cm.getCost mx my = NO_INFORMATION
            · rw [if_neg h1, if_neg h2, if_pos h3] at hfalse
              exact ⟨mx, my, rfl, Or.inr (Or.inr ⟨h3, hfalse⟩)⟩
            · rw [if_neg h1, if_neg h2, if_neg h3] at hfalse
              exact absurd hfalse (by simp)
      · rintro ⟨mx', my', hmm, hcases⟩
        obtain ⟨rfl, rfl⟩ : mx' = mx ∧ my' = my := by
          have := hmm
          simp_all
        rcases hcases with h1 | h2 | ⟨h3, ht⟩
        · rw [if_pos h1]
        · rw [if_neg (by simp [h2, INSCRIBED_INFLATED_OBSTACLE, LETHAL_OBSTACLE]), if_pos h2]
        · rw [if_neg (by simp [h3, NO_INFORMATION, LETHAL_OBSTACLE]),
            if_neg (by simp [h3, NO_INFORMATION, INSCRIBED_INFLATED_OBSTACLE]), if_pos h3]
          exact ht

/-- Concrete cost grid used as witness input for C5: world x = 0 maps to
a lethal cell, world x = 1 to a free cell, anything else is off-grid. -/
def costmapC5 : Costmap :=
  { worldToMap := fun x _ => if x = 0 then some (0, 0) else if x = 1 then some (1, 0) else none
    getCost := fun mx _ => if mx = 0 then 254 else 1
    trackingUnknown := false }

/-- Concrete critic context used as witness input for C5: a 3-point
path along the x axis. -/
def dataC5 : CriticData :=
  { path := { len := 3, x := fun i => i, y := fun _ => 0, yaws := fun _ => 0 }
    trajectories := { rows := 0, cols := 0, x := fun _ _ => 0, y := fun _ _ => 0 }
    goal := ⟨0, 0, 0⟩
    furthest_reached_path_point := none
    path_pts_valid := none }

/-- Witness for C5 at the concrete grid and path: the mask exists and
has one entry per segment. -/
theorem path_validity_mask_correct_witness :
    1 ≤ dataC5.path.len ∧
      ∃ mask, (findPathCosts costmapC5 dataC5).path_pts_valid = some mask ∧
        mask.length = dataC5.path.len - 1 := by
  refine ⟨by norm_num [dataC5], ?_⟩
  obtain ⟨mask, h1, h2, -, -, -⟩ :=
    path_validity_mask_correct costmapC5 dataC5 (by norm_num [dataC5])
  exact ⟨mask, h1, h2⟩

/-- A (column-major) Eigen `ArrayXXf`, as handed to
`shiftColumnsByOnePlace` through `Eigen::Ref`: the entry at row `i`,
column `j` is `data (j * rows + i)`. -/
structure EigenArray where
  rows : ℕ
  cols : ℕ
  data : ℕ → ℚ

/-- Total element count (`e.size()`). -/
def EigenArray.size (e : EigenArray) : ℕ := e.rows * e.cols

/-- Entry at row `i`, column `j` of the column-major data. -/
def EigenArray.entry (e : EigenArray) (i j : ℕ) : ℚ := e.data (j * e.rows + i)

/-- Models `mppi::utils::shiftColumnsByOnePlace`.  The two pointer-walk
branches of the source are rendered by their net effect on the
column-major buffer: the 1D branch (single row or single column) moves
scalars by one place, the 2D branch moves whole columns (`span = rows`)
by one place; positions outside the buffer are untouched.  The
`std::logic_error` throw is an `Except.error`. -/
def shiftColumnsByOnePlace (e : EigenArray) (direction : ℤ) : Except String EigenArray :=
  if e.size = 1 then .ok e
  else if |direction| ≠ 1 then .error "Invalid direction, only 1 and -1 are valid values."
  else if (e.cols = 1 ∨ e.rows = 1) ∧ 1 < e.size then
    .ok { e with data := fun k =>
      if direction = 1 then
        if k = 0 then e.data 0 else if k < e.size then e.data (k - 1) else e.data k
      else
        if k + 1 < e.size then e.data (k + 1) else e.data k }
  else
    .ok { e with data := fun k =>
      if direction = 1 then
        if k < e.rows then e.data k else if k < e.size then e.data (k - e.rows) else e.data k
      else
        if k + e.rows < e.size then e.data (k + e.rows) else e.data k }

/-- The single-column two-row array `[1; 2]` used to refute C10 as
stated. -/
def colArray2 : EigenArray :=
  { rows := 2, cols := 1, data := fun k => if k = 0 then 1 else if k = 1 then 2 else 0 }

/-- Counterexample to C10 as stated: `colArray2` has more than one
element and direction `1` is valid, so the claim asserts column 0 is
unchanged; but the source routes single-column arrays through its 1D
branch, which shifts the scalars inside the column: the entry at row 1,
column 0 becomes the old row-0 entry `1` instead of keeping `2`. -/
theorem shiftColumns_single_column_cex :
    1 < colArray2.size ∧
      (match shiftColumnsByOnePlace colArray2 1 with
       | .ok r => r.entry 1 0
       | .error _ => 37) = 1 ∧
      colArray2.entry 1 0 = 2 := by
  refine ⟨by norm_num [colArray2, EigenArray.size], ?_, by norm_num [colArray2, EigenArray.entry]⟩
  norm_num [shiftColumnsByOnePlace, colArray2, EigenArray.size, EigenArray.entry]

/-- Helper: an integer has absolute value 1 exactly when it is 1 or
-1. -/
theorem int_abs_eq_one_iff (d : ℤ) : |d| = 1 ↔ d = 1 ∨ d = -1 :=
  abs_eq (by norm_num)

/-- C10 (amended): the shift is a silent no-op on one-element arrays for
any direction; on larger arrays it errors exactly when the direction is
neither 1 nor -1; with at least two rows and two columns, direction 1
moves every column one place right (column 0 unchanged) and direction -1
one place left (last column unchanged); single-row or single-column
arrays instead have their scalar entries shifted by one place (for a
single-row array this coincides with the column description). -/
theorem shiftColumnsByOnePlace_behavior (e : EigenArray) (direction : ℤ) :
    (e.size = 1 → shiftColumnsByOnePlace e direction = .ok e) ∧
    (1 < e.size →
      ((∃ msg, shiftColumnsByOnePlace e direction = .error msg) ↔
        (direction ≠ 1 ∧ direction ≠ -1))) ∧
    (2 ≤ e.rows → 2 ≤ e.cols →
      (∃ r, shiftColumnsByOnePlace e 1 = .ok r ∧ r.rows = e.rows ∧ r.cols = e.cols ∧
        ∀ i j, i < e.rows → j < e.cols →
          r.entry i j = if j = 0 then e.entry i 0 else e.entry i (j - 1)) ∧
      (∃ r, shiftColumnsByOnePlace e (-1) = .ok r ∧ r.rows = e.rows ∧ r.cols = e.cols ∧
        ∀ i j, i < e.rows → j < e.cols →
          r.entry i j = if j = e.cols - 1 then e.entry i j else e.entry i (j + 1))) ∧
    ((e.cols = 1 ∨ e.rows = 1) → 1 < e.size →
      (∃ r, shiftColumnsByOnePlace e 1 = .ok r ∧
        ∀ k, k < e.size → r.data k = if k = 0 then e.data 0 else e.data (k - 1)) ∧
      (∃ r, shiftColumnsByOnePlace e (-1) = .ok r ∧
        ∀ k, k < e.size → r.data k = if k + 1 = e.size then e.data k else e.data (k + 1))) := by
  refine ⟨?_, ?_, ?_, ?_⟩
  · intro h1
    unfold shiftColumnsByOnePlace
    rw [if_pos h1]
  · intro hgt
    unfold shiftColumnsByOnePlace
    rw [if_neg (by omega)]
    constructor
    · intro ⟨msg, hmsg⟩
      by_cases habs : |direction| = 1
      · rw [if_neg (by simp [habs])] at hmsg
        split at hmsg <;> exact absurd hmsg (by simp)
      · exact ⟨fun h => habs ((int_abs_eq_one_iff direction).mpr (Or.inl h)),
          fun h => habs ((int_abs_eq_one_iff direction).mpr (Or.inr h))⟩
    · intro ⟨hd1, hdm1⟩
      rw [if_pos (fun habs => ((int_abs_eq_one_iff direction).mp habs).elim hd1 hdm1)]
      exact ⟨_, rfl⟩
  · intro hr hc
    have hsize : e.size = e.rows * e.cols := rfl
    have hgt : 1 < e.size := by
      have : 2 * 2 ≤ e.rows * e.cols := Nat.mul_le_mul hr hc
      omega
    have hnot1d : ¬((e.cols = 1 ∨ e.rows = 1) ∧ 1 < e.size) := by
      rintro ⟨h | h, -⟩ <;> omega
    constructor
    · refine ⟨{ e with data := fun k =>
          if k < e.rows then e.data k
          else if k < e.size then e.data (k - e.rows) else e.data k }, ?_, rfl, rfl, ?_⟩
      · unfold shiftColumnsByOnePlace
        rw [if_neg (by omega), if_neg (by norm_num), if_neg hnot1d]
        simp
      · intro i j hi hj
        dsimp only [EigenArray.entry]
        rcases Nat.eq_zero_or_pos j with rfl | hjpos
        · rw [Nat.zero_mul, Nat.zero_add, if_pos hi, if_pos rfl]
        · obtain ⟨j', rfl⟩ : ∃ j', j = j' + 1 := ⟨j - 1, by omega⟩
          have hexp : (j' + 1) * e.rows = j' * e.rows + e.rows := Nat.succ_mul _ _
          have hklow : ¬((j' + 1) * e.rows + i < e.rows) := by omega
          have hkhigh : (j' + 1) * e.rows + i < e.size := by
            rw [hsize]
            calc (j' + 1) * e.rows + i < (j' + 1) * e.rows + e.rows := by omega
              _ = (j' + 2) * e.rows := by ring
              _ ≤ e.cols * e.rows := Nat.mul_le_mul_right e.rows (by omega)
              _ = e.rows * e.cols := Nat.mul_comm _ _
          rw [if_neg hklow, if_pos hkhigh, if_neg (Nat.succ_ne_zero j')]
          simp only [Nat.add_sub_cancel]
          congr 1
          omega
    · refine ⟨{ e with data := fun k =>
          if k + e.rows < e.size then e.data (k + e.rows) else e.data k }, ?_, rfl, rfl, ?_⟩
      · unfold shiftColumnsByOnePlace
        rw [if_neg (by omega), if_neg (by norm_num), if_neg hnot1d]
        simp
      · intro i j hi hj
        dsimp only [EigenArray.entry]
        by_cases hlast : j = e.cols - 1
        · have hexp : (e.cols - 1) * e.rows + e.rows = e.cols * e.rows := by
            have hcc : e.cols - 1 + 1 = e.cols := by omega
            calc (e.cols - 1) * e.rows + e.rows = (e.cols - 1 + 1) * e.rows := by ring
              _ = e.cols * e.rows := by rw [hcc]
          have hcomm : e.rows * e.cols = e.cols * e.rows := Nat.mul_comm _ _
          have hge : ¬(j * e.rows + i + e.rows < e.size) := by
            rw [hsize, hlast]
            omega
          rw [if_neg hge, if_pos hlast]
        · have hexp : (j + 1) * e.rows = j * e.rows + e.rows := Nat.succ_mul _ _
          have hlt : j * e.rows + i + e.rows < e.size := by
            rw [hsize]
            calc j * e.rows + i + e.rows < (j + 1) * e.rows + e.rows := by omega
              _ = (j + 2) * e.rows := by ring
              _ ≤ e.cols * e.rows := Nat.mul_le_mul_right e.rows (by omega)
              _ = e.rows * e.cols := Nat.mul_comm _ _
          rw [if_pos hlt, if_neg hlast]
          congr 1
          omega
  · intro h1d hgt
    have h1dcond : (e.cols = 1 ∨ e.rows = 1) ∧ 1 < e.size := ⟨h1d, hgt⟩
    constructor
    · refine ⟨{ e with data := fun k =>
          if k = 0 then e.data 0
          else if k < e.size then e.data (k - 1) else e.data k }, ?_, ?_⟩
      · unfold shiftColumnsByOnePlace
        rw [if_neg (by omega), if_neg (by norm_num), if_pos h1dcond]
        simp
      · intro k hk
        dsimp only
        rcases Nat.eq_zero_or_pos k with rfl | hkpos
        · rw [if_pos rfl, if_pos rfl]
        · rw [if_neg (by omega), if_pos hk, if_neg (by omega)]
    · refine ⟨{ e with data := fun k =>
          if k + 1 < e.size then e.data (k + 1) else e.data k }, ?_, ?_⟩
      · unfold shiftColumnsByOnePlace
        rw [if_neg (by omega), if_neg (by norm_num), if_pos h1dcond]
        simp
      · intro k hk
        dsimp only
        by_cases hkend : k + 1 = e.size
        · rw [if_neg (by omega), if_pos hkend]
        · rw [if_pos (by omega), if_neg hkend]

/-- Witness for C10: a 2-by-2 array with the invalid direction 5 raises
the error, via the amended characterization. -/
theorem shiftColumnsByOnePlace_behavior_witness :
    1 < (EigenArray.mk 2 2 (fun _ => 0)).size ∧
      ∃ msg, shiftColumnsByOnePlace (EigenArray.mk 2 2 (fun _ => 0)) 5 = .error msg := by
  have hgt : 1 < (EigenArray.mk 2 2 (fun _ => 0)).size := by
    norm_num [EigenArray.size]
  exact ⟨hgt,
    ((shiftColumnsByOnePlace_behavior (EigenArray.mk 2 2 (fun _ => 0)) 5).2.1 hgt).mpr
      (by norm_num)⟩

/-- One control vector, models `mppi::models::Control`. -/
structure Control where
  vx : ℚ
  vy : ℚ
  wz : ℚ
deriving DecidableEq

/-- A control sequence, models `mppi::models::ControlSequence`:
`len` is the horizon length `vx.size()`;  indices at or beyond `len`
are irrelevant to the verified code. -/
structure ControlSequence where
  len : ℕ
  vx : ℕ → ℚ
  vy : ℕ → ℚ
  wz : ℕ → ℚ

/-- The last four applied controls,
models `std::array<mppi::models::Control, 4>` (`h0` oldest). -/
structure ControlHistory where
  h0 : Control
  h1 : Control
  h2 : Control
  h3 : Control

/-- The raw Savitzky-Golay quadratic 9-point coefficient at position
`k`, before division by 231. -/
def sgFilterRaw : ℕ → ℚ
  | 0 => -21
  | 1 => 14
  | 2 => 39
  | 3 => 54
  | 4 => 59
  | 5 => 54
  | 6 => 39
  | 7 => 14
  | 8 => -21
  | _ => 0

/-- The normalized Savitzky-Golay coefficient (`filter /= 231`). -/
def sgFilter (k : ℕ) : ℚ := sgFilterRaw k / 231

/-- The element at window position `k` (0..8) of the 9-point window
around output index `idx`: positions before the sequence start come
from the last four history entries, positions past the last element are
clamped to it (`initial_sequence(num_sequences)` in the source). -/
def sgWindow (h0 h1 h2 h3 : ℚ) (s : ℕ → ℚ) (n idx k : ℕ) : ℚ :=
  if idx + k = 0 then h0
  else if idx + k = 1 then h1
  else if idx + k = 2 then h2
  else if idx + k = 3 then h3
  else s (min (idx + k - 4) n)

/-- The filtered value at index `idx` of one control axis
(`applyFilter` over the running window of `applyFilterOverAxis`). -/
def sgSmoothAxis (h0 h1 h2 h3 : ℚ) (s : ℕ → ℚ) (n idx : ℕ) : ℚ :=
  (Finset.range 9).sum fun k => sgWindow h0 h1 h2 h3 s n idx k * sgFilter k

/-- Models `mppi::utils::savitskyGolayFilter`: the new values of the
by-reference control sequence and control history.  With
`num_sequences = vx.size() - 1 < 20` the call returns immediately;
otherwise indices `0 ≤ idx < num_sequences` of each axis are replaced
by the filtered value (the final element keeps its value), and the
history ring advances, its newest slot taking the just-smoothed control
at `offset` (1 under `shift_control_sequence`, else 0). -/
def savitskyGolayFilter (cs : ControlSequence) (hist : ControlHistory)
    (shift_control_sequence : Bool) : ControlSequence × ControlHistory :=
  if cs.len - 1 < 20 then (cs, hist)
  else
    let n := cs.len - 1
    let nvx := fun idx =>
      if idx < n then sgSmoothAxis hist.h0.vx hist.h1.vx hist.h2.vx hist.h3.vx cs.vx n idx
      else cs.vx idx
    let nvy := fun idx =>
      if idx < n then sgSmoothAxis hist.h0.vy hist.h1.vy hist.h2.vy hist.h3.vy cs.vy n idx
      else cs.vy idx
    let nwz := fun idx =>
      if idx < n then sgSmoothAxis hist.h0.wz hist.h1.wz hist.h2.wz hist.h3.wz cs.wz n idx
      else cs.wz idx
    let offset := if shift_control_sequence then 1 else 0
    ({ len := cs.len, vx := nvx, vy := nvy, wz := nwz },
     { h0 := hist.h1, h1 := hist.h2, h2 := hist.h3
       h3 := { vx := nvx offset, vy := nvy offset, wz := nwz offset } })

/-- A 20-step control sequence whose first value a genuine filter
application would change. -/
def csLen20 : ControlSequence :=
  { len := 20, vx := fun i => if i = 0 then 1 else 0, vy := fun _ => 0, wz := fun _ => 0 }

/-- The all-zero control history. -/
def histZero : ControlHistory :=
  { h0 := ⟨0, 0, 0⟩, h1 := ⟨0, 0, 0⟩, h2 := ⟨0, 0, 0⟩, h3 := ⟨0, 0, 0⟩ }

/-- Counterexample to C3 as stated: the horizon length of `csLen20` is
20 — at the claimed threshold — yet the filter is a no-op there
(the source skips whenever `vx.size() - 1 < 20`), although applying the
9-point filter would change the first value (to 59/231). -/
theorem savitskyGolay_threshold_boundary_cex :
    csLen20.len = 20 ∧
      savitskyGolayFilter csLen20 histZero false = (csLen20, histZero) ∧
      sgSmoothAxis histZero.h0.vx histZero.h1.vx histZero.h2.vx histZero.h3.vx
          csLen20.vx (csLen20.len - 1) 0 ≠ csLen20.vx 0 := by
  refine ⟨rfl, ?_, ?_⟩
  · unfold savitskyGolayFilter
    rw [if_pos (by norm_num [csLen20])]
  · show sgSmoothAxis 0 0 0 0 csLen20.vx 19 0 ≠ csLen20.vx 0
    norm_num [sgSmoothAxis, sgWindow, sgFilter, sgFilterRaw, csLen20, Finset.sum_range_succ]

/-- C3 (amended): the smoothing filter is a no-op — control sequence
and history both unchanged — exactly when the number of filter steps
`horizon - 1` is under 20 (so for horizon lengths up to 20); from
horizon length 21 on it applies the fixed 9-point quadratic FIR filter
independently per axis, with the last four history entries as left
boundary values, leaving the final element of each axis in place, and
advances the history ring. -/
theorem savitskyGolay_noop_below_threshold (cs : ControlSequence) (hist : ControlHistory)
    (b : Bool) :
    (cs.len - 1 < 20 → savitskyGolayFilter cs hist b = (cs, hist)) ∧
    (20 ≤ cs.len - 1 →
      (savitskyGolayFilter cs hist b).1.len = cs.len ∧
      (∀ idx, (savitskyGolayFilter cs hist b).1.vx idx =
        if idx < cs.len - 1 then
          sgSmoothAxis hist.h0.vx hist.h1.vx hist.h2.vx hist.h3.vx cs.vx (cs.len - 1) idx
        else cs.vx idx) ∧
      (∀ idx, (savitskyGolayFilter cs hist b).1.vy idx =
        if idx < cs.len - 1 then
          sgSmoothAxis hist.h0.vy hist.h1.vy hist.h2.vy hist.h3.vy cs.vy (cs.len - 1) idx
        else cs.vy idx) ∧
      (∀ idx, (savitskyGolayFilter cs hist b).1.wz idx =
        if idx < cs.len - 1 then
          sgSmoothAxis hist.h0.wz hist.h1.wz hist.h2.wz hist.h3.wz cs.wz (cs.len - 1) idx
        else cs.wz idx) ∧
      (savitskyGolayFilter cs hist b).2.h0 = hist.h1 ∧
      (savitskyGolayFilter cs hist b).2.h1 = hist.h2 ∧
      (savitskyGolayFilter cs hist b).2.h2 = hist.h3) := by
  constructor
  · intro hlt
    unfold savitskyGolayFilter
    rw [if_pos hlt]
  · intro hge
    unfold savitskyGolayFilter
    rw [if_neg (by omega)]
    exact ⟨rfl, fun idx => rfl, fun idx => rfl, fun idx => rfl, rfl, rfl, rfl⟩

/-- Witness for C3 at a 5-step sequence (no-op branch) and at a 21-step
sequence (filter branch, length preserved). -/
theorem savitskyGolay_noop_below_threshold_witness :
    ((ControlSequence.mk 5 (fun _ => 1) (fun _ => 0) (fun _ => 0)).len - 1 < 20 ∧
      savitskyGolayFilter (ControlSequence.mk 5 (fun _ => 1) (fun _ => 0) (fun _ => 0))
          histZero false =
        (ControlSequence.mk 5 (fun _ => 1) (fun _ => 0) (fun _ => 0), histZero)) ∧
    (20 ≤ (ControlSequence.mk 21 (fun _ => 1) (fun _ => 0) (fun _ => 0)).len - 1 ∧
      (savitskyGolayFilter (ControlSequence.mk 21 (fun _ => 1) (fun _ => 0) (fun _ => 0))
          histZero false).1.len = 21) :=
  ⟨⟨by norm_num,
    (savitskyGolay_noop_below_threshold
      (ControlSequence.mk 5 (fun _ => 1) (fun _ => 0) (fun _ => 0)) histZero false).1
      (by norm_num)⟩,
   ⟨by norm_num,
    ((savitskyGolay_noop_below_threshold
      (ControlSequence.mk 21 (fun _ => 1) (fun _ => 0) (fun _ => 0)) histZero false).2
      (by norm_num)).1⟩⟩

/-- The inner search loop of
`mppi::utils::findPathFurthestReachedPoint` over one trajectory row:
fold of `if cur_dist < min_distance_by_path then update` over the
remaining column indices; the accumulator starts at
`(min_id_by_path = 0, min_distance_by_path = FLT_MAX)`, the float
maximum being modelled by `none`. -/
def minLoop (d : ℕ → ℚ) : List ℕ → ℕ × Option ℚ → ℕ × Option ℚ
  | [], acc => acc
  | j :: rest, (_i, none) => minLoop d rest (j, some (d j))
  | j :: rest, (i, some b) =>
      minLoop d rest (if d j < b then (j, some (d j)) else (i, some b))

/-- The nearest-path-index search of one trajectory row: scan columns
`j = start, ..., ncols - 1` and keep the first strict minimum of the
distance `d`. -/
def rowNearestIdx (d : ℕ → ℚ) (ncols start : ℕ) : ℕ :=
  (minLoop d (List.range' start (ncols - start)) (0, none)).1

/-- Squared distance between path point `j` and the final-timestep
position of trajectory row `i` (`dists(i, j)` in the source). -/
def trajDist (data : CriticData) (i j : ℕ) : ℚ :=
  let last_col := data.trajectories.cols - 1
  let dx := data.path.x j - data.trajectories.x i last_col
  let dy := data.path.y j - data.trajectories.y i last_col
  dx * dx + dy * dy

/-- The running `max_id_by_trajectories` cursor of
`findPathFurthestReachedPoint` before row `i` is processed: each row
raises it to the maximum of itself and the row's nearest path index at
or beyond it. -/
def furthestCursor (d : ℕ → ℕ → ℚ) (ncols : ℕ) : ℕ → ℕ
  | 0 => 0
  | i + 1 =>
      max (furthestCursor d ncols i)
        (rowNearestIdx (d i) ncols (furthestCursor d ncols i))

/-- Models `mppi::utils::findPathFurthestReachedPoint`: the cursor after
all trajectory rows have been processed. -/
def findPathFurthestReachedPoint (data : CriticData) : ℕ :=
  furthestCursor (trajDist data) data.path.len data.trajectories.rows

/-- Models `mppi::utils::setPathFurthestPointIfNotSet`: compute the
furthest point only when the cache is empty. -/
def setPathFurthestPointIfNotSet (data : CriticData) : CriticData :=
  match data.furthest_reached_path_point with
  | none =>
      { data with furthest_reached_path_point := some (findPathFurthestReachedPoint data) }
  | some _ => data

/-- Invariant of the row search loop once the accumulator carries a
candidate: the final candidate is no further than the accumulator and
than every remaining column, and is either the incoming candidate or
one of the scanned columns realizing its own distance. -/
theorem minLoop_some_spec (d : ℕ → ℚ) :
    ∀ (l : List ℕ) (i0 : ℕ) (b0 : ℚ),
      ∃ i1 b1, minLoop d l (i0, some b0) = (i1, some b1) ∧ b1 ≤ b0 ∧
        (∀ j ∈ l, b1 ≤ d j) ∧ ((i1 = i0 ∧ b1 = b0) ∨ (i1 ∈ l ∧ b1 = d i1)) := by
  intro l
  induction l with
  | nil =>
    intro i0 b0
    exact ⟨i0, b0, rfl, le_refl _, by simp, Or.inl ⟨rfl, rfl⟩⟩
  | cons j rest ih =>
    intro i0 b0
    by_cases hd : d j < b0
    · have hstep : minLoop d (j :: rest) (i0, some b0) = minLoop d rest (j, some (d j)) := by
        show minLoop d rest (if d j < b0 then (j, some (d j)) else (i0, some b0)) = _
        rw [if_pos hd]
      obtain ⟨i1, b1, heq, hle, hall, hor⟩ := ih j (d j)
      refine ⟨i1, b1, hstep.trans heq, le_trans hle hd.le, ?_, ?_⟩
      · intro m hm
        rcases List.mem_cons.mp hm with rfl | hmr
        · exact hle
        · exact hall m hmr
      · rcases hor with ⟨hi, hb⟩ | ⟨hm, hb⟩
        · exact Or.inr ⟨by simp [hi], by rw [hb, hi]⟩
        · exact Or.inr ⟨List.mem_cons_of_mem j hm, hb⟩
    · have hstep : minLoop d (j :: rest) (i0, some b0) = minLoop d rest (i0, some b0) := by
        show minLoop d rest (if d j < b0 then (j, some (d j)) else (i0, some b0)) = _
        rw [if_neg hd]
      obtain ⟨i1, b1, heq, hle, hall, hor⟩ := ih i0 b0
      refine ⟨i1, b1, hstep.trans heq, hle, ?_, ?_⟩
      · intro m hm
        rcases List.mem_cons.mp hm with rfl | hmr
        · exact le_trans hle (not_lt.mp hd)
        · exact hall m hmr
      · rcases hor with hsame | ⟨hm, hb⟩
        · exact Or.inl hsame
        · exact Or.inr ⟨List.mem_cons_of_mem j hm, hb⟩

/-- The row search over a non-empty window `[start, ncols)` returns an
index inside the window minimizing the distance over the window. -/
theorem rowNearestIdx_spec (d : ℕ → ℚ) (ncols start : ℕ) (h : start < ncols) :
    start ≤ rowNearestIdx d ncols start ∧ rowNearestIdx d ncols start < ncols ∧
      ∀ j, start ≤ j → j < ncols → d (rowNearestIdx d ncols start) ≤ d j := by
  have hn : ncols - start = (ncols - start - 1) + 1 := by omega
  unfold rowNearestIdx
  rw [hn, List.range'_succ]
  have hstep :
      minLoop d (start :: List.range' (start + 1) (ncols - start - 1)) (0, none) =
        minLoop d (List.range' (start + 1) (ncols - start - 1)) (start, some (d start)) := rfl
  rw [hstep]
  obtain ⟨i1, b1, heq, hle, hall, hor⟩ :=
    minLoop_some_spec d (List.range' (start + 1) (ncols - start - 1)) start (d start)
  rw [heq]
  have hmem : ∀ m, m ∈ List.range' (start + 1) (ncols - start - 1) ↔
      start + 1 ≤ m ∧ m < ncols := by
    intro m
    rw [List.mem_range'_1]
    omega
  have hdi : d i1 = b1 := by
    rcases hor with ⟨hi, hb⟩ | ⟨-, hb⟩
    · rw [hi, hb]
    · exact hb.symm
  have hrange : start ≤ i1 ∧ i1 < ncols := by
    rcases hor with ⟨hi, -⟩ | ⟨hm, -⟩
    · exact ⟨le_of_eq hi.symm, hi ▸ h⟩
    · have := (hmem i1).mp hm
      omega
  refine ⟨hrange.1, hrange.2, ?_⟩
  intro j hj1 hj2
  rcases eq_or_lt_of_le hj1 with rfl | hgt
  · exact hdi ▸ hle
  · exact hdi ▸ hall j ((hmem j).mpr ⟨hgt, hj2⟩)

/-- The cursor is monotone non-decreasing in the row number. -/
theorem furthestCursor_mono (d : ℕ → ℕ → ℚ) (ncols : ℕ) :
    ∀ i k, i ≤ k → furthestCursor d ncols i ≤ furthestCursor d ncols k := by
  intro i k hik
  induction hik with
  | refl => exact le_refl _
  | step _ ih => exact le_trans ih (le_max_left _ _)

/-- With a non-empty path every cursor value stays inside the path. -/
theorem furthestCursor_lt (d : ℕ → ℕ → ℚ) (ncols : ℕ) (h : 0 < ncols) :
    ∀ i, furthestCursor d ncols i < ncols := by
  intro i
  induction i with
  | zero => exact h
  | succ i ih =>
    show max _ _ < ncols
    exact max_lt ih (rowNearestIdx_spec (d i) ncols _ ih).2.1

/-- The cursor after `n` rows is the maximum of the per-row nearest
indices. -/
theorem furthestCursor_sup (d : ℕ → ℕ → ℚ) (ncols : ℕ) :
    ∀ n, furthestCursor d ncols n =
      (Finset.range n).sup
        (fun i => rowNearestIdx (d i) ncols (furthestCursor d ncols i)) := by
  intro n
  induction n with
  | zero => rfl
  | succ n ih =>
    rw [Finset.range_succ, Finset.sup_insert, sup_eq_max]
    show max (furthestCursor d ncols n)
        (rowNearestIdx (d n) ncols (furthestCursor d ncols n)) = _
    rw [ih]
    exact max_comm _ _

/-- C2: for every critic context, the per-row cursor of the
furthest-reached-path-point computation is non-decreasing across
trajectory rows; each row's search begins at or beyond every previous
row's nearest index; the returned value is the maximum over all rows of
each row's nearest path index at or beyond its cursor; and (for a
non-empty path) that per-row index does minimize, over the window from
the cursor on, the squared distance measured from the row's
final-timestep position. -/
theorem furthestReachedPoint_cursor_monotone (data : CriticData) :
    (∀ i k, i ≤ k →
      furthestCursor (trajDist data) data.path.len i ≤
        furthestCursor (trajDist data) data.path.len k) ∧
    (∀ k i, k < i →
      rowNearestIdx (trajDist data k) data.path.len
          (furthestCursor (trajDist data) data.path.len k) ≤
        furthestCursor (trajDist data) data.path.len i) ∧
    findPathFurthestReachedPoint data =
      (Finset.range data.trajectories.rows).sup
        (fun i => rowNearestIdx (trajDist data i) data.path.len
          (furthestCursor (trajDist data) data.path.len i)) ∧
    (0 < data.path.len → ∀ i,
      furthestCursor (trajDist data) data.path.len i ≤
        rowNearestIdx (trajDist data i) data.path.len
          (furthestCursor (trajDist data) data.path.len i) ∧
      rowNearestIdx (trajDist data i) data.path.len
          (furthestCursor (trajDist data) data.path.len i) < data.path.len ∧
      ∀ j, furthestCursor (trajDist data) data.path.len i ≤ j → j < data.path.len →
        trajDist data i
            (rowNearestIdx (trajDist data i) data.path.len
              (furthestCursor (trajDist data) data.path.len i)) ≤
          trajDist data i j) := by
  refine ⟨furthestCursor_mono _ _, ?_, furthestCursor_sup _ _ _, ?_⟩
  · intro k i hki
    have h1 : rowNearestIdx (trajDist data k) data.path.len
        (furthestCursor (trajDist data) data.path.len k) ≤
          furthestCursor (trajDist data) data.path.len (k + 1) := le_max_right _ _
    exact le_trans h1 (furthestCursor_mono _ _ _ _ hki)
  · intro hpos i
    exact rowNearestIdx_spec (trajDist data i) data.path.len _
      (furthestCursor_lt (trajDist data) data.path.len hpos i)

/-- Concrete critic context used as witness input for C2: one
trajectory row, a two-point path. -/
def dataC2 : CriticData :=
  { path := { len := 2, x := fun _ => 0, y := fun _ => 0, yaws := fun _ => 0 }
    trajectories := { rows := 1, cols := 1, x := fun _ _ => 0, y := fun _ _ => 0 }
    goal := ⟨0, 0, 0⟩
    furthest_reached_path_point := none
    path_pts_valid := none }

/-- Witness for C2 at the concrete context: row 0's search starts at or
below its nearest index. -/
theorem furthestReachedPoint_cursor_monotone_witness :
    0 < dataC2.path.len ∧
      furthestCursor (trajDist dataC2) dataC2.path.len 0 ≤
        rowNearestIdx (trajDist dataC2 0) dataC2.path.len
          (furthestCursor (trajDist dataC2) dataC2.path.len 0) := by
  have hpos : 0 < dataC2.path.len := by norm_num [dataC2]
  exact ⟨hpos, (((furthestReachedPoint_cursor_monotone dataC2).2.2.2 hpos) 0).1⟩
